import Mathlib

/-!
Shallow embedding of the `unit-enum` derive macro (src/src/lib.rs).

The macro's core consists of:
* `validate_and_process` — the variant classifier: it walks the declared
  variants in order, collecting unit variants and at most one catch-all
  ("other") variant, and rejecting invalid shapes;
* `get_discriminant_type` — the underlying integer type, from the
  `repr` attribute, defaulting to `i32`;
* `compute_discriminants` — the discriminant resolver: explicit value,
  else previous resolved value plus one, else zero;
* the generated operations `name`, `ordinal`, `from_ordinal`,
  `discriminant`, `from_discriminant`, `len`, `values`.

Enum instances of a derived type are embedded positionally: `unitV i` is
the i-th unit variant in declaration order (among unit variants only) and
`otherV d` is the catch-all instance holding payload `d`.  The generated
match arms are index-directed, so the generated methods become the Lean
functions below.  Discriminant expressions are embedded as their integer
values (the spec evaluates them in the underlying integer type; overflow
is a declared non-goal), so discriminants are `Int`.
-/

set_option maxHeartbeats 1000000

namespace UnitEnumM

/-- A Rust type reference, by its textual rendering (e.g. "i32", "u16"). -/
abbrev RustType := String

/-- An attribute attached to a variant: its path (e.g. "unit_enum") and,
when present, the nested meta identifier it carries (the attribute written
`unit_enum(other)` has path "unit_enum" and nested meta "other"; a bare
path attribute has none, which makes `parse_nested_meta` fail as in the
source). -/
structure VAttr where
  path : String
  nested : Option String
  deriving DecidableEq, Repr

/-- The shape of a variant's fields, mirroring `syn::Fields`: unit (no
fields), unnamed tuple fields with their types, or named fields. -/
inductive VFields where
  | unit
  | unnamed (tys : List RustType)
  | named (tys : List RustType)
  deriving DecidableEq, Repr

/-- A declared enum variant: identifier, attributes, field shape, and the
optional explicit discriminant expression, embedded as its integer value. -/
structure Variant where
  name : String
  attrs : List VAttr
  fields : VFields
  discriminant : Option Int
  deriving DecidableEq, Repr

/-- The derive input restricted to enums (`Data::Enum`): the enum name,
the parsed argument of the `repr` attribute when present, and the ordered
variant list. -/
structure EnumDecl where
  name : String
  reprType : Option RustType
  variants : List Variant
  deriving DecidableEq, Repr

/-- A build-time error as produced by `Error::new_spanned`: `span` records
the variant the error was attached to (by its name), `msg` the message. -/
structure DeriveError where
  span : String
  msg : String
  deriving DecidableEq, Repr

/-- `has_unit_enum_attr` from the source: some attribute has path
`unit_enum`. -/
def has_unit_enum_attr (v : Variant) : Bool :=
  v.attrs.any (fun a => a.path == "unit_enum")

/-- `has_unit_enum_other_attr` from the source: some `unit_enum` attribute
has nested meta `other`. -/
def has_unit_enum_other_attr (v : Variant) : Bool :=
  v.attrs.any (fun a => a.path == "unit_enum" && a.nested == some "other")

/-- `get_discriminant_type` from the source: the `repr` attribute argument
when present, otherwise the default `i32`.  (The source's error branch for
a `repr` argument that fails to parse as a type is not modelled:
`reprType` already holds the parsed type.) -/
def get_discriminant_type (ast : EnumDecl) : RustType :=
  ast.reprType.getD "i32"

/-- The validation loop of `validate_and_process`, processing variants in
declaration order while accumulating the unit variants and the optional
catch-all variant with its payload type.  Each arm mirrors one arm of the
source's `match &variant.fields`. -/
def processVariants : List Variant → List Variant → Option (Variant × RustType) →
    Except DeriveError (List Variant × Option (Variant × RustType))
  | [], units, other => .ok (units, other)
  | v :: rest, units, other =>
    match v.fields with
    | .unit =>
      if has_unit_enum_attr v then
        .error ⟨v.name, "Unit variants cannot have #[unit_enum] attributes"⟩
      else
        processVariants rest (units ++ [v]) other
    | .unnamed [ty] =>
      if has_unit_enum_other_attr v then
        match other with
        | some _ =>
          .error ⟨v.name, "Multiple #[unit_enum(other)] variants found. Only one is allowed"⟩
        | none => processVariants rest units (some (v, ty))
      else
        .error ⟨v.name, "Non-unit variant must be marked with #[unit_enum(other)] to be used as the catch-all variant"⟩
    | _ =>
      .error ⟨v.name, "Invalid variant. UnitEnum only supports unit variants and a single tuple variant marked with #[unit_enum(other)]"⟩

/-- `validate_and_process` from the source: the discriminant type from the
`repr` attribute, then the classification of every variant in order. -/
def validate_and_process (ast : EnumDecl) :
    Except DeriveError (RustType × List Variant × Option (Variant × RustType)) :=
  match processVariants ast.variants [] none with
  | .ok (units, other) => .ok (get_discriminant_type ast, units, other)
  | .error e => .error e

/-- One step of discriminant resolution, as in the loop body of
`compute_discriminants`: the explicit expression when present, else the
previous resolved value plus one, else zero. -/
def resolveDisc (v : Variant) (last : Option Int) : Int :=
  match v.discriminant with
  | some e => e
  | none =>
    match last with
    | some l => l + 1
    | none => 0

/-- The loop of `compute_discriminants`, threading `last_discriminant`. -/
def computeDiscAux : List Variant → Option Int → List Int
  | [], _ => []
  | v :: rest, last => resolveDisc v last :: computeDiscAux rest (some (resolveDisc v last))

/-- `compute_discriminants` from the source: one resolved discriminant per
variant, in order, starting with `last_discriminant = None`. -/
def compute_discriminants (variants : List Variant) : List Int :=
  computeDiscAux variants none

/-- A runtime instance of a derived enum, positionally: `unitV i` is the
i-th unit variant in declaration order among unit variants; `otherV d` is
the catch-all instance holding payload `d`.  `unitV i` denotes a real
variant only when `i < number of unit variants`. -/
inductive EnumValue where
  | unitV (i : Nat)
  | otherV (d : Int)
  deriving DecidableEq, Repr

/-- The generated `ordinal` method (`generate_ordinal_impl`): the arm for
the i-th unit variant returns `i`; the catch-all arm returns
`num_variants`, ignoring the payload. -/
def ordinal (numVariants : Nat) : EnumValue → Nat
  | .unitV i => i
  | .otherV _ => numVariants

/-- The match-arm chain of the generated `from_ordinal`
(`generate_from_ordinal_impl`): arms for indices `i, i+1, ..., i+k-1`
tried in order, then the wildcard arm returning `None`.  The full method
is `fromOrdinalArms ord 0 n`. -/
def fromOrdinalArms (ord : Nat) : Nat → Nat → Option EnumValue
  | _, 0 => none
  | i, k + 1 => if ord == i then some (.unitV i) else fromOrdinalArms ord (i + 1) k

/-- The generated `from_ordinal` method: the arm for index `i`
(0 ≤ i < number of unit variants) returns the i-th unit variant; the
wildcard arm returns `None`. -/
def from_ordinal (numVariants : Nat) (ord : Nat) : Option EnumValue :=
  fromOrdinalArms ord 0 numVariants

/-- The generated `discriminant` method (`generate_discriminant_impl`):
the arm for the i-th unit variant returns its resolved discriminant; the
catch-all arm returns the stored payload verbatim (`*val`). -/
def discriminant (discs : List Int) : EnumValue → Int
  | .unitV i => discs.getD i 0
  | .otherV d => d

/-- The guard chain of the generated `from_discriminant`: the arms
`x if x == dᵢ => variantᵢ` are tried in declaration order; this returns
the index of the first discriminant equal to `d`, starting the count at
`i`.  The full scan is `firstMatchFrom d 0 discs`. -/
def firstMatchFrom (d : Int) : Nat → List Int → Option Nat
  | _, [] => none
  | i, x :: rest => if d == x then some i else firstMatchFrom d (i + 1) rest

/-- The generated `from_discriminant` for an enum without a catch-all
(`generate_from_discriminant_impl`, else branch): first matching unit
variant, else `None`. -/
def from_discriminant_no_other (discs : List Int) (d : Int) : Option EnumValue :=
  (firstMatchFrom d 0 discs).map EnumValue.unitV

/-- The generated `from_discriminant` for an enum with a catch-all
(`generate_from_discriminant_impl`, then branch): first matching unit
variant, else the catch-all carrying `d` as payload; the result type is
`Self`, not an option — the method is total. -/
def from_discriminant_with_other (discs : List Int) (d : Int) : EnumValue :=
  match firstMatchFrom d 0 discs with
  | some i => .unitV i
  | none => .otherV d

/-- The generated `values` method (`generate_values_impl`): the
materialized vector of the unit variants in declaration order; the
catch-all never appears. -/
def values (numVariants : Nat) : List EnumValue :=
  (List.range numVariants).map EnumValue.unitV

/-- The data determining the whole generated operation set for one enum:
everything `impl_unit_enum` interpolates into the generated `impl` block.
(The catch-all's payload type is carried although the generated code only
uses its name; this only strengthens equalities between operation sets.) -/
structure OpSet where
  discriminantType : RustType
  unitNames : List String
  discs : List Int
  numVariants : Nat
  otherVariant : Option (String × RustType)
  deriving DecidableEq, Repr

/-- The generated `len` method: returns `num_variants`, the number of unit
variants recorded in the operation set. -/
def len (os : OpSet) : Nat :=
  os.numVariants

/-- `impl_unit_enum` from the source: packages the classified variants and
resolved discriminants into the generated operation set. -/
def impl_unit_enum (dty : RustType) (units : List Variant)
    (other : Option (Variant × RustType)) : OpSet :=
  { discriminantType := dty
    unitNames := units.map Variant.name
    discs := compute_discriminants units
    numVariants := units.length
    otherVariant := other.map (fun p => (p.1.name, p.2)) }

/-- `unit_enum_derive` from the source, restricted to enum inputs:
classification, then code generation; on error, only the compile error is
emitted (no operation set). -/
def unit_enum_derive (ast : EnumDecl) : Except DeriveError OpSet :=
  match validate_and_process ast with
  | .ok (dty, units, other) => .ok (impl_unit_enum dty units other)
  | .error e => .error e

/-- A unit variant declaration with no attributes. -/
def unitVar (nm : String) (d : Option Int) : Variant :=
  ⟨nm, [], .unit, d⟩

/-- A catch-all variant declaration: one unnamed payload field, tagged
`unit_enum(other)`. -/
def otherVar (nm : String) (ty : RustType) : Variant :=
  ⟨nm, [⟨"unit_enum", some "other"⟩], .unnamed [ty], none⟩

/-- The example declaration `[A, B = 10, C]` from the spec. -/
def exampleABC : List Variant :=
  [unitVar "A" none, unitVar "B" (some 10), unitVar "C" none]

theorem computeDiscAux_length (vs : List Variant) (last : Option Int) :
    (computeDiscAux vs last).length = vs.length := by
  induction vs generalizing last with
  | nil => rfl
  | cons v rest ih => simp [computeDiscAux, ih]

theorem computeDiscAux_spec :
    ∀ (vs : List Variant) (last : Option Int) (i : Nat), i < vs.length →
    (computeDiscAux vs last).getD i 0 =
      match (vs.map Variant.discriminant).getD i none with
      | some e => e
      | none =>
        if i = 0 then
          match last with
          | some l => l + 1
          | none => 0
        else (computeDiscAux vs last).getD (i - 1) 0 + 1
  | [], _, i, h => by simp at h
  | v :: rest, last, 0, h => by
    simp only [computeDiscAux, List.getD_cons_zero, List.map_cons]
    cases hv : v.discriminant with
    | some e => simp [resolveDisc, hv]
    | none => cases last <;> simp [resolveDisc, hv]
  | v :: rest, last, j + 1, h => by
    have hj : j < rest.length := by simpa using Nat.lt_of_succ_lt_succ h
    have ihj := computeDiscAux_spec rest (some (resolveDisc v last)) j hj
    simp only [computeDiscAux, List.getD_cons_succ, List.map_cons]
    rw [ihj]
    cases hd : (rest.map Variant.discriminant).getD j none with
    | some e => rfl
    | none =>
      cases j with
      | zero => simp
      | succ k => simp

/-- Claim C1: the discriminant resolver assigns each variant, in
declaration order, its explicit value when present, otherwise the previous
variant's resolved value plus one, otherwise (first variant with no
explicit value) zero; in particular `[A, B = 10, C]` resolves to
`[0, 10, 11]`. -/
theorem discriminant_resolution_rule (vs : List Variant) (i : Nat) (h : i < vs.length) :
    (compute_discriminants vs).length = vs.length ∧
    (compute_discriminants vs).getD i 0 =
      (match (vs.map Variant.discriminant).getD i none with
       | some e => e
       | none =>
         if i = 0 then 0
         else (compute_discriminants vs).getD (i - 1) 0 + 1) ∧
    compute_discriminants exampleABC = [0, 10, 11] := by
  refine ⟨computeDiscAux_length vs none, ?_, by decide⟩
  have hs := computeDiscAux_spec vs none i h
  simpa [compute_discriminants] using hs

/-- Witness for C1 at the concrete input `[A, B = 10, C]`, index 2. -/
theorem discriminant_resolution_rule_witness :
    2 < exampleABC.length ∧
    ((compute_discriminants exampleABC).length = exampleABC.length ∧
     (compute_discriminants exampleABC).getD 2 0 =
       (match (exampleABC.map Variant.discriminant).getD 2 none with
        | some e => e
        | none =>
          if 2 = 0 then 0
          else (compute_discriminants exampleABC).getD (2 - 1) 0 + 1) ∧
     compute_discriminants exampleABC = [0, 10, 11]) :=
  ⟨by decide, discriminant_resolution_rule exampleABC 2 (by decide)⟩

theorem firstMatchFrom_none (d : Int) :
    ∀ (discs : List Int) (k : Nat), (∀ x ∈ discs, x ≠ d) → firstMatchFrom d k discs = none
  | [], _, _ => rfl
  | x :: rest, k, h => by
    have hx : x ≠ d := h x (List.mem_cons_self x rest)
    have hdx : ¬((d == x) = true) := fun hq => hx (beq_iff_eq.mp hq).symm
    simp only [firstMatchFrom]
    rw [if_neg hdx]
    exact firstMatchFrom_none d rest (k + 1) (fun y hy => h y (List.mem_cons_of_mem x hy))

theorem firstMatchFrom_shift (d : Int) :
    ∀ (discs : List Int) (k : Nat),
      firstMatchFrom d k discs = (firstMatchFrom d 0 discs).map (fun j => j + k)
  | [], _ => rfl
  | x :: rest, k => by
    simp only [firstMatchFrom]
    by_cases hdx : (d == x) = true
    · rw [if_pos hdx, if_pos hdx]; simp
    · rw [if_neg hdx, if_neg hdx]
      rw [firstMatchFrom_shift d rest (k + 1), firstMatchFrom_shift d rest 1]
      cases firstMatchFrom d 0 rest with
      | none => rfl
      | some j => simp; omega

theorem firstMatchFrom_found (d : Int) :
    ∀ (discs : List Int), (∃ x ∈ discs, x = d) →
      ∃ j, firstMatchFrom d 0 discs = some j ∧ j < discs.length ∧
        discs.getD j 0 = d ∧ ∀ k, k < j → discs.getD k 0 ≠ d
  | [], h => absurd h (by simp)
  | x :: rest, h => by
    by_cases hdx : x = d
    · refine ⟨0, ?_, by simp, by simpa using hdx, fun k hk => absurd hk (Nat.not_lt_zero k)⟩
      simp [firstMatchFrom, hdx]
    · have h2 : ∃ y ∈ rest, y = d := by
        rcases h with ⟨y, hy, rfl⟩
        rcases List.mem_cons.mp hy with hyx | hyr
        · exact absurd hyx.symm hdx
        · exact ⟨y, hyr, rfl⟩
      obtain ⟨j, hfm, hlen, hget, hprev⟩ := firstMatchFrom_found d rest h2
      have hbe : ¬((d == x) = true) := fun hq => hdx (beq_iff_eq.mp hq).symm
      refine ⟨j + 1, ?_, by simpa using Nat.succ_lt_succ hlen, by simpa using hget, ?_⟩
      · simp only [firstMatchFrom]
        rw [if_neg hbe, firstMatchFrom_shift d rest 1, hfm]
        rfl
      · intro k hk
        cases k with
        | zero => simpa using hdx
        | succ m =>
          simpa using hprev m (Nat.lt_of_succ_lt_succ hk)

/-- Claim C2: without a catch-all, `from_discriminant` returns nothing on
any `d` matching no unit variant's resolved discriminant; with a
catch-all, `from_discriminant` is total (its result type is `Self`) and on
any such unmatched `d` it returns the catch-all carrying `d` as payload. -/
theorem from_discriminant_catch_all_split (discs : List Int) (d : Int)
    (h : ∀ x ∈ discs, x ≠ d) :
    from_discriminant_no_other discs d = none ∧
    from_discriminant_with_other discs d = .otherV d := by
  have hn := firstMatchFrom_none d discs 0 h
  exact ⟨by simp [from_discriminant_no_other, hn], by simp [from_discriminant_with_other, hn]⟩

/-- Witness for C2: discriminants `[0, 10, 11]`, unmatched value `5`. -/
theorem from_discriminant_catch_all_split_witness :
    (∀ x ∈ ([0, 10, 11] : List Int), x ≠ 5) ∧
    (from_discriminant_no_other [0, 10, 11] 5 = none ∧
     from_discriminant_with_other [0, 10, 11] 5 = .otherV 5) :=
  ⟨by decide, from_discriminant_catch_all_split [0, 10, 11] 5 (by decide)⟩

theorem fromOrdinalArms_spec (ord : Nat) :
    ∀ (k i : Nat), fromOrdinalArms ord i k =
      if i ≤ ord ∧ ord < i + k then some (.unitV ord) else none
  | 0, i => by rw [if_neg (by omega)]; rfl
  | k + 1, i => by
    simp only [fromOrdinalArms]
    by_cases hoi : ord = i
    · subst hoi
      simp only [beq_self_eq_true, if_true]
      rw [if_pos ⟨Nat.le_refl ord, by omega⟩]
    · have hbe : ¬((ord == i) = true) := by simpa using hoi
      rw [if_neg hbe, fromOrdinalArms_spec ord k (i + 1)]
      by_cases h2 : i + 1 ≤ ord ∧ ord < i + 1 + k
      · rw [if_pos h2, if_pos (by omega)]
      · rw [if_neg h2, if_neg (by omega)]

/-- Claim C4: for `i` in `[0, len())`, `from_ordinal i` returns the i-th
unit variant, whose `ordinal` is `i`; outside that range it returns
nothing; and `from_ordinal` never produces the catch-all variant. -/
theorem from_ordinal_roundtrip (numVariants i : Nat) :
    (i < numVariants →
      from_ordinal numVariants i = some (.unitV i) ∧ ordinal numVariants (.unitV i) = i) ∧
    (numVariants ≤ i → from_ordinal numVariants i = none) ∧
    (∀ v, from_ordinal numVariants i = some v → ∀ d : Int, v ≠ .otherV d) := by
  have hsp := fromOrdinalArms_spec i numVariants 0
  refine ⟨fun h => ⟨?_, rfl⟩, fun h => ?_, fun v hv d => ?_⟩
  · unfold from_ordinal
    rw [hsp, if_pos ⟨Nat.zero_le _, by omega⟩]
  · unfold from_ordinal
    rw [hsp, if_neg (by omega)]
  · unfold from_ordinal at hv
    rw [hsp] at hv
    by_cases hc : 0 ≤ i ∧ i < 0 + numVariants
    · rw [if_pos hc] at hv
      have hvi : v = .unitV i := (Option.some.inj hv).symm
      subst hvi
      simp
    · rw [if_neg hc] at hv
      exact Option.noConfusion hv

/-- Witness for C4 at `len = 3`, ordinal `1`. -/
theorem from_ordinal_roundtrip_witness :
    from_ordinal 3 1 = some (.unitV 1) ∧ ordinal 3 (.unitV 1) = 1 :=
  (from_ordinal_roundtrip 3 1).1 (by decide)

/-- An enum whose two unit variants share the explicit discriminant 5:
duplicates are accepted by the derivation without error. -/
def dupEnum : EnumDecl :=
  ⟨"Dup", none, [unitVar "A" (some 5), unitVar "B" (some 5)]⟩

/-- Claim C5: `from_discriminant (discriminant v)` for a unit variant `v`
yields the earliest-declared unit variant sharing `v`'s resolved
discriminant (so `v` itself when its discriminant is unique), in both the
catch-all and the no-catch-all shape; and a declaration with duplicate
discriminants derives without error. -/
theorem from_discriminant_first_match (discs : List Int) (i : Nat) (h : i < discs.length) :
    (∃ j, j ≤ i ∧ discs.getD j 0 = discs.getD i 0 ∧
      (∀ k, k < j → discs.getD k 0 ≠ discs.getD i 0) ∧
      from_discriminant_no_other discs (discriminant discs (.unitV i)) = some (.unitV j) ∧
      from_discriminant_with_other discs (discriminant discs (.unitV i)) = .unitV j) ∧
    unit_enum_derive dupEnum = .ok ⟨"i32", ["A", "B"], [5, 5], 2, none⟩ := by
  refine ⟨?_, by rfl⟩
  have hmem : ∃ x ∈ discs, x = discs.getD i 0 := by
    refine ⟨discs.getD i 0, ?_, rfl⟩
    rw [List.getD_eq_getElem discs 0 h]
    exact List.getElem_mem h
  obtain ⟨j, hfm, hjlen, hget, hprev⟩ := firstMatchFrom_found (discs.getD i 0) discs hmem
  have hji : j ≤ i := by
    by_contra hc
    push_neg at hc
    exact hprev i hc rfl
  refine ⟨j, hji, hget, hprev, ?_, ?_⟩
  · simp only [from_discriminant_no_other, discriminant]
    rw [hfm]
    rfl
  · simp only [from_discriminant_with_other, discriminant]
    rw [hfm]

/-- Witness for C5: discriminants `[0, 10, 11]`, unit variant index 1. -/
theorem from_discriminant_first_match_witness :
    1 < ([0, 10, 11] : List Int).length ∧
    ((∃ j, j ≤ 1 ∧ ([0, 10, 11] : List Int).getD j 0 = ([0, 10, 11] : List Int).getD 1 0 ∧
      (∀ k, k < j → ([0, 10, 11] : List Int).getD k 0 ≠ ([0, 10, 11] : List Int).getD 1 0) ∧
      from_discriminant_no_other [0, 10, 11] (discriminant [0, 10, 11] (.unitV 1)) =
        some (.unitV j) ∧
      from_discriminant_with_other [0, 10, 11] (discriminant [0, 10, 11] (.unitV 1)) =
        .unitV j) ∧
     unit_enum_derive dupEnum = .ok ⟨"i32", ["A", "B"], [5, 5], 2, none⟩) :=
  ⟨by decide, from_discriminant_first_match [0, 10, 11] 1 (by decide)⟩

/-- True exactly on variants with unit field shape. -/
def isUnitVariant (v : Variant) : Bool :=
  match v.fields with
  | .unit => true
  | _ => false

/-- True exactly on variants shaped as a legal catch-all: one unnamed
payload field and the `unit_enum(other)` tag. -/
def isCatchAll (v : Variant) : Bool :=
  match v.fields with
  | .unnamed [_] => has_unit_enum_other_attr v
  | _ => false

/-- True exactly on variants the classifier rejects on sight: a unit
variant carrying a `unit_enum` attribute, a one-field tuple variant not
tagged `unit_enum(other)`, or any other field shape. -/
def badVariant (v : Variant) : Bool :=
  match v.fields with
  | .unit => has_unit_enum_attr v
  | .unnamed [_] => !has_unit_enum_other_attr v
  | _ => true

/-- The number of catch-all-shaped variants in a declaration list. -/
def countOthers (vs : List Variant) : Nat :=
  (vs.filter isCatchAll).length

/-- The first catch-all-shaped variant of a list, with its payload type. -/
def firstCatch : List Variant → Option (Variant × RustType)
  | [] => none
  | v :: rest =>
    match v.fields with
    | .unnamed [ty] =>
      if has_unit_enum_other_attr v then some (v, ty) else firstCatch rest
    | _ => firstCatch rest

/-- 1 when a catch-all has already been recorded, else 0. -/
def otherBit : Option (Variant × RustType) → Nat
  | some _ => 1
  | none => 0

theorem countOthers_cons (v : Variant) (vs : List Variant) :
    countOthers (v :: vs) = (if isCatchAll v = true then 1 else 0) + countOthers vs := by
  by_cases hv : isCatchAll v = true
  · simp [countOthers, List.filter_cons, hv]
    omega
  · simp [countOthers, List.filter_cons, hv]

theorem countOthers_append (l₁ l₂ : List Variant) :
    countOthers (l₁ ++ l₂) = countOthers l₁ + countOthers l₂ := by
  simp [countOthers, List.filter_append]

theorem processVariants_ok_of_good :
    ∀ (vs units0 : List Variant) (other0 : Option (Variant × RustType)),
      (∀ v ∈ vs, badVariant v = false) →
      countOthers vs + otherBit other0 ≤ 1 →
      processVariants vs units0 other0 =
        .ok (units0 ++ vs.filter isUnitVariant,
             match other0 with
             | some p => some p
             | none => firstCatch vs)
  | [], units0, other0, _, _ => by
    cases other0 <;> simp [processVariants, firstCatch]
  | v :: rest, units0, other0, hgood, hcount => by
    have hv := hgood v (List.mem_cons_self v rest)
    have hrest : ∀ w ∈ rest, badVariant w = false :=
      fun w hw => hgood w (List.mem_cons_of_mem v hw)
    have hcc := countOthers_cons v rest
    cases hf : v.fields with
    | unit =>
      have hattr : has_unit_enum_attr v = false := by
        simpa [badVariant, hf] using hv
      have hnc : isCatchAll v = false := by simp [isCatchAll, hf]
      have h2 : countOthers rest + otherBit other0 ≤ 1 := by
        rw [hcc] at hcount
        simpa [hnc] using hcount
      have ih := processVariants_ok_of_good rest (units0 ++ [v]) other0 hrest h2
      have hstep : processVariants (v :: rest) units0 other0 =
          processVariants rest (units0 ++ [v]) other0 := by
        simp [processVariants, hf, hattr]
      rw [hstep, ih]
      have hfil : (v :: rest).filter isUnitVariant = v :: rest.filter isUnitVariant := by
        simp [List.filter_cons, isUnitVariant, hf]
      rw [hfil]
      cases other0 with
      | some p => simp
      | none =>
        have hfc : firstCatch (v :: rest) = firstCatch rest := by
          simp [firstCatch, hf]
        simp [hfc]
    | unnamed tys =>
      cases tys with
      | nil =>
        have : badVariant v = true := by simp [badVariant, hf]
        simp [this] at hv
      | cons ty tys2 =>
        cases tys2 with
        | cons ty2 tys3 =>
          have : badVariant v = true := by simp [badVariant, hf]
          simp [this] at hv
        | nil =>
          have hoattr : has_unit_enum_other_attr v = true := by
            by_contra hno
            have hbo : has_unit_enum_other_attr v = false := by simpa using hno
            simp [badVariant, hf, hbo] at hv
          have hic : isCatchAll v = true := by simp [isCatchAll, hf, hoattr]
          cases other0 with
          | some p =>
            rw [hcc] at hcount
            simp [hic, otherBit] at hcount
          | none =>
            have h2 : countOthers rest + otherBit (some (v, ty)) ≤ 1 := by
              rw [hcc] at hcount
              simp [hic, otherBit] at hcount ⊢
              omega
            have ih := processVariants_ok_of_good rest units0 (some (v, ty)) hrest h2
            have hstep : processVariants (v :: rest) units0 none =
                processVariants rest units0 (some (v, ty)) := by
              simp [processVariants, hf, hoattr]
            rw [hstep, ih]
            have hfil : (v :: rest).filter isUnitVariant = rest.filter isUnitVariant := by
              simp [List.filter_cons, isUnitVariant, hf]
            have hfc : firstCatch (v :: rest) = some (v, ty) := by
              simp [firstCatch, hf, hoattr]
            rw [hfil]
            simp [hfc]
    | named tys =>
      have : badVariant v = true := by simp [badVariant, hf]
      simp [this] at hv

theorem processVariants_ok_conditions :
    ∀ (vs units0 : List Variant) (other0 : Option (Variant × RustType))
      (r : List Variant × Option (Variant × RustType)),
      processVariants vs units0 other0 = .ok r →
      (∀ v ∈ vs, badVariant v = false) ∧ countOthers vs + otherBit other0 ≤ 1
  | [], _, other0, r, _ => by
    refine ⟨by simp, ?_⟩
    cases other0 <;> simp [countOthers, otherBit]
  | v :: rest, units0, other0, r, h => by
    have hcc := countOthers_cons v rest
    cases hf : v.fields with
    | unit =>
      by_cases hattr : has_unit_enum_attr v = true
      · simp [processVariants, hf, hattr] at h
      · have hattr2 : has_unit_enum_attr v = false := by simpa using hattr
        have hstep : processVariants (v :: rest) units0 other0 =
            processVariants rest (units0 ++ [v]) other0 := by
          simp [processVariants, hf, hattr2]
        rw [hstep] at h
        obtain ⟨hg, hc⟩ := processVariants_ok_conditions rest (units0 ++ [v]) other0 r h
        refine ⟨?_, ?_⟩
        · intro w hw
          rcases List.mem_cons.mp hw with rfl | hwr
          · simp [badVariant, hf, hattr2]
          · exact hg w hwr
        · have hnc : isCatchAll v = false := by simp [isCatchAll, hf]
          rw [hcc]
          simpa [hnc] using hc
    | unnamed tys =>
      cases tys with
      | nil => simp [processVariants, hf] at h
      | cons ty tys2 =>
        cases tys2 with
        | cons ty2 tys3 => simp [processVariants, hf] at h
        | nil =>
          by_cases hoattr : has_unit_enum_other_attr v = true
          · cases other0 with
            | some p => simp [processVariants, hf, hoattr] at h
            | none =>
              have hstep : processVariants (v :: rest) units0 none =
                  processVariants rest units0 (some (v, ty)) := by
                simp [processVariants, hf, hoattr]
              rw [hstep] at h
              obtain ⟨hg, hc⟩ := processVariants_ok_conditions rest units0 (some (v, ty)) r h
              refine ⟨?_, ?_⟩
              · intro w hw
                rcases List.mem_cons.mp hw with rfl | hwr
                · simp [badVariant, hf, hoattr]
                · exact hg w hwr
              · have hic : isCatchAll v = true := by simp [isCatchAll, hf, hoattr]
                rw [hcc]
                simp [hic, otherBit] at hc ⊢
                omega
          · have hb2 : has_unit_enum_other_attr v = false := by simpa using hoattr
            simp [processVariants, hf, hb2] at h
    | named tys => simp [processVariants, hf] at h

/-- On success, the derivation output is canonical: the unit variants are
exactly the unit-shaped variants in declaration order, and the catch-all
is the unique catch-all-shaped variant when present. -/
theorem unit_enum_derive_ok (ast : EnumDecl) (os : OpSet) (h : unit_enum_derive ast = .ok os) :
    os = impl_unit_enum (get_discriminant_type ast)
          (ast.variants.filter isUnitVariant) (firstCatch ast.variants) := by
  unfold unit_enum_derive validate_and_process at h
  cases hp : processVariants ast.variants [] none with
  | error e => rw [hp] at h; simp at h
  | ok r =>
    obtain ⟨hgood, hcount⟩ := processVariants_ok_conditions ast.variants [] none r hp
    have hcanon := processVariants_ok_of_good ast.variants [] none hgood hcount
    rw [hp] at hcanon h
    have hr : r = (ast.variants.filter isUnitVariant, firstCatch ast.variants) := by
      have := Except.ok.inj hcanon
      simpa using this
    subst hr
    simpa using h.symm

theorem processVariants_error_of_bad :
    ∀ (vs units0 : List Variant) (other0 : Option (Variant × RustType)),
      ((∃ v ∈ vs, badVariant v = true) ∨ 2 ≤ countOthers vs + otherBit other0) →
      ∃ e, processVariants vs units0 other0 = .error e ∧
        ∃ v ∈ vs, e.span = v.name ∧ (badVariant v = true ∨ isCatchAll v = true)
  | [], _, other0, h => by
    rcases h with ⟨v, hv, _⟩ | h2
    · simp at hv
    · cases other0 <;> simp [countOthers, otherBit] at h2
  | v :: rest, units0, other0, h => by
    have hcc := countOthers_cons v rest
    cases hf : v.fields with
    | unit =>
      by_cases hattr : has_unit_enum_attr v = true
      · refine ⟨⟨v.name, "Unit variants cannot have #[unit_enum] attributes"⟩, ?_,
          v, List.mem_cons_self v rest, rfl, Or.inl ?_⟩
        · simp [processVariants, hf, hattr]
        · simp [badVariant, hf, hattr]
      · have hattr2 : has_unit_enum_attr v = false := by simpa using hattr
        have hnc : isCatchAll v = false := by simp [isCatchAll, hf]
        have hrec : (∃ w ∈ rest, badVariant w = true) ∨
            2 ≤ countOthers rest + otherBit other0 := by
          rcases h with ⟨w, hw, hbw⟩ | h2
          · rcases List.mem_cons.mp hw with rfl | hwr
            · simp [badVariant, hf, hattr2] at hbw
            · exact Or.inl ⟨w, hwr, hbw⟩
          · refine Or.inr ?_
            rw [hcc] at h2
            simpa [hnc] using h2
        obtain ⟨e, he, w, hw, hspan, hbad⟩ :=
          processVariants_error_of_bad rest (units0 ++ [v]) other0 hrec
        have hstep : processVariants (v :: rest) units0 other0 =
            processVariants rest (units0 ++ [v]) other0 := by
          simp [processVariants, hf, hattr2]
        exact ⟨e, by rw [hstep]; exact he, w, List.mem_cons_of_mem v hw, hspan, hbad⟩
    | unnamed tys =>
      cases tys with
      | nil =>
        refine ⟨⟨v.name, "Invalid variant. UnitEnum only supports unit variants and a single tuple variant marked with #[unit_enum(other)]"⟩, ?_,
          v, List.mem_cons_self v rest, rfl, Or.inl (by simp [badVariant, hf])⟩
        simp [processVariants, hf]
      | cons ty tys2 =>
        cases tys2 with
        | cons ty2 tys3 =>
          refine ⟨⟨v.name, "Invalid variant. UnitEnum only supports unit variants and a single tuple variant marked with #[unit_enum(other)]"⟩, ?_,
            v, List.mem_cons_self v rest, rfl, Or.inl (by simp [badVariant, hf])⟩
          simp [processVariants, hf]
        | nil =>
          by_cases hoattr : has_unit_enum_other_attr v = true
          · have hic : isCatchAll v = true := by simp [isCatchAll, hf, hoattr]
            cases other0 with
            | some p =>
              refine ⟨⟨v.name, "Multiple #[unit_enum(other)] variants found. Only one is allowed"⟩, ?_,
                v, List.mem_cons_self v rest, rfl, Or.inr hic⟩
              simp [processVariants, hf, hoattr]
            | none =>
              have hrec : (∃ w ∈ rest, badVariant w = true) ∨
                  2 ≤ countOthers rest + otherBit (some (v, ty)) := by
                rcases h with ⟨w, hw, hbw⟩ | h2
                · rcases List.mem_cons.mp hw with rfl | hwr
                  · simp [badVariant, hf, hoattr] at hbw
                  · exact Or.inl ⟨w, hwr, hbw⟩
                · refine Or.inr ?_
                  rw [hcc] at h2
                  simp [hic, otherBit] at h2 ⊢
                  omega
              obtain ⟨e, he, w, hw, hspan, hbad⟩ :=
                processVariants_error_of_bad rest units0 (some (v, ty)) hrec
              have hstep : processVariants (v :: rest) units0 none =
                  processVariants rest units0 (some (v, ty)) := by
                simp [processVariants, hf, hoattr]
              exact ⟨e, by rw [hstep]; exact he, w, List.mem_cons_of_mem v hw, hspan, hbad⟩
          · have hb2 : has_unit_enum_other_attr v = false := by simpa using hoattr
            refine ⟨⟨v.name, "Non-unit variant must be marked with #[unit_enum(other)] to be used as the catch-all variant"⟩, ?_,
              v, List.mem_cons_self v rest, rfl, Or.inl (by simp [badVariant, hf, hb2])⟩
            simp [processVariants, hf, hb2]
    | named tys =>
      refine ⟨⟨v.name, "Invalid variant. UnitEnum only supports unit variants and a single tuple variant marked with #[unit_enum(other)]"⟩, ?_,
        v, List.mem_cons_self v rest, rfl, Or.inl (by simp [badVariant, hf])⟩
      simp [processVariants, hf]

theorem isUnitVariant_false_of_catch (o : Variant) (ho : isCatchAll o = true) :
    isUnitVariant o = false := by
  cases hf : o.fields with
  | unit => simp [isCatchAll, hf] at ho
  | unnamed tys => simp [isUnitVariant, hf]
  | named tys => simp [isUnitVariant, hf]

theorem catch_shape (o : Variant) (ho : isCatchAll o = true) :
    ∃ ty, o.fields = .unnamed [ty] ∧ has_unit_enum_other_attr o = true := by
  cases hf : o.fields with
  | unit => simp [isCatchAll, hf] at ho
  | unnamed tys =>
    cases tys with
    | nil => simp [isCatchAll, hf] at ho
    | cons ty tys2 =>
      cases tys2 with
      | nil => exact ⟨ty, rfl, by simpa [isCatchAll, hf] using ho⟩
      | cons ty2 tys3 => simp [isCatchAll, hf] at ho
  | named tys => simp [isCatchAll, hf] at ho

theorem firstCatch_cons_not_catch (v : Variant) (rest : List Variant)
    (hnc : isCatchAll v = false) :
    firstCatch (v :: rest) = firstCatch rest := by
  cases hf : v.fields with
  | unit => simp [firstCatch, hf]
  | unnamed tys =>
    cases tys with
    | nil => simp [firstCatch, hf]
    | cons ty tys2 =>
      cases tys2 with
      | nil =>
        have hb : has_unit_enum_other_attr v = false := by
          simpa [isCatchAll, hf] using hnc
        simp [firstCatch, hf, hb]
      | cons ty2 tys3 => simp [firstCatch, hf]
  | named tys => simp [firstCatch, hf]

theorem firstCatch_cons_catch (o : Variant) (rest : List Variant) (ty : RustType)
    (hf : o.fields = .unnamed [ty]) (hat : has_unit_enum_other_attr o = true) :
    firstCatch (o :: rest) = some (o, ty) := by
  simp [firstCatch, hf, hat]

theorem firstCatch_append_zero (l rest : List Variant) (h : countOthers l = 0) :
    firstCatch (l ++ rest) = firstCatch rest := by
  induction l with
  | nil => rfl
  | cons v l ih =>
    rw [countOthers_cons] at h
    have hnc : isCatchAll v = false := by
      by_cases hx : isCatchAll v = true
      · simp [hx] at h
      · simpa using hx
    have hl : countOthers l = 0 := by simpa [hnc] using h
    rw [List.cons_append, firstCatch_cons_not_catch v (l ++ rest) hnc, ih hl]

/-- When every variant is well-shaped and at most one is a catch-all, the
derivation succeeds with the canonical operation set. -/
theorem unit_enum_derive_eq_of_good (ast : EnumDecl)
    (hgood : ∀ v ∈ ast.variants, badVariant v = false)
    (hcount : countOthers ast.variants ≤ 1) :
    unit_enum_derive ast = .ok (impl_unit_enum (get_discriminant_type ast)
      (ast.variants.filter isUnitVariant) (firstCatch ast.variants)) := by
  have hp := processVariants_ok_of_good ast.variants [] none hgood
    (by simpa [otherBit] using hcount)
  unfold unit_enum_derive validate_and_process
  rw [hp]
  rfl

theorem unit_enum_derive_ok_processVariants (ast : EnumDecl) (os : OpSet)
    (h : unit_enum_derive ast = .ok os) :
    ∃ r, processVariants ast.variants [] none = .ok r := by
  unfold unit_enum_derive validate_and_process at h
  cases hp : processVariants ast.variants [] none with
  | error e => rw [hp] at h; simp at h
  | ok r => exact ⟨r, rfl⟩

/-- A catch-all enum with payload `i32` and no `repr` attribute: the
crate's own documentation says `repr` is required when an other variant is
used, but the classifier accepts this declaration. -/
def noReprCatchAll : EnumDecl :=
  ⟨"E", none, [unitVar "A" none, otherVar "Unknown" "i32"]⟩

/-- A catch-all enum whose payload type `u8` differs from the declared
`repr(u16)`: the crate's own documentation says the payload must match the
repr type, but the classifier accepts this declaration. -/
def mismatchReprCatchAll : EnumDecl :=
  ⟨"E2", some "u16", [unitVar "A" none, otherVar "Unknown" "u8"]⟩

/-- Claim C3 (evidence of a code bug): the classifier performs no check
relating the catch-all's payload type to the underlying representation.
A catch-all with no `repr` attribute derives successfully with the default
`i32`, and a catch-all whose payload type (`u8`) differs from the declared
representation (`u16`) also passes classification — no build-time error
identifying the offending variant is produced in either case, contrary to
the claim and to the crate's own doc comment. -/
theorem catch_all_repr_unchecked :
    unit_enum_derive noReprCatchAll =
      .ok ⟨"i32", ["A"], [0], 1, some ("Unknown", "i32")⟩ ∧
    unit_enum_derive mismatchReprCatchAll =
      .ok ⟨"u16", ["A"], [0], 1, some ("Unknown", "u8")⟩ ∧
    ("u8" : RustType) ≠ "u16" :=
  ⟨rfl, rfl, by decide⟩

/-- The spec's catch-all example: `Active = 1`, `Inactive = 2`, catch-all
`Unknown(u16)`, with `repr(u16)`. -/
def statusEnum : EnumDecl :=
  ⟨"Status", some "u16",
   [unitVar "Active" (some 1), unitVar "Inactive" (some 2), otherVar "Unknown" "u16"]⟩

/-- The operation set derived from `statusEnum`. -/
def statusOpSet : OpSet :=
  ⟨"u16", ["Active", "Inactive"], [1, 2], 2, some ("Unknown", "u16")⟩

/-- Claim C6: on a derived enum with a catch-all, `ordinal` of any
catch-all instance is the number of unit variants of the declaration (one
past the last unit ordinal, whatever the payload), and `ordinal` of the
i-th unit variant is `i`, its zero-based position among unit variants in
declaration order. -/
theorem ordinal_unit_and_catch_all (ast : EnumDecl) (os : OpSet)
    (h : unit_enum_derive ast = .ok os) (hc : os.otherVariant.isSome = true)
    (i : Nat) (d : Int) (hi : i < os.numVariants) :
    ordinal os.numVariants (.otherV d) = (ast.variants.filter isUnitVariant).length ∧
    ordinal os.numVariants (.unitV i) = i := by
  have hos := unit_enum_derive_ok ast os h
  subst hos
  exact ⟨rfl, rfl⟩

/-- Witness for C6 on the `Status` enum, unit index 1, payload 99. -/
theorem ordinal_unit_and_catch_all_witness :
    (unit_enum_derive statusEnum = .ok statusOpSet ∧
     statusOpSet.otherVariant.isSome = true ∧ 1 < statusOpSet.numVariants) ∧
    (ordinal statusOpSet.numVariants (.otherV 99) =
        (statusEnum.variants.filter isUnitVariant).length ∧
     ordinal statusOpSet.numVariants (.unitV 1) = 1) :=
  ⟨⟨rfl, rfl, by decide⟩,
   ordinal_unit_and_catch_all statusEnum statusOpSet rfl rfl 1 99 (by decide)⟩

/-- Claim C7: `len` is exactly the number of unit-shaped variants of the
declaration (the catch-all, having a payload, is never counted), and
`discriminant` of a catch-all instance returns its stored payload
verbatim. -/
theorem len_counts_unit_variants (ast : EnumDecl) (os : OpSet)
    (h : unit_enum_derive ast = .ok os) (d : Int) :
    len os = (ast.variants.filter isUnitVariant).length ∧
    discriminant os.discs (.otherV d) = d := by
  have hos := unit_enum_derive_ok ast os h
  subst hos
  exact ⟨rfl, rfl⟩

/-- Witness for C7 on the `Status` enum, payload 7. -/
theorem len_counts_unit_variants_witness :
    unit_enum_derive statusEnum = .ok statusOpSet ∧
    (len statusOpSet = (statusEnum.variants.filter isUnitVariant).length ∧
     discriminant statusOpSet.discs (.otherV 7) = 7) :=
  ⟨rfl, len_counts_unit_variants statusEnum statusOpSet rfl 7⟩

/-- Claim C8: `values` is the finite list of exactly the unit variants,
in declaration order (the i-th element is the i-th unit variant), the
catch-all never occurs in it, and — the generated method rebuilding its
vector on every call, embedded here as a pure function — every call yields
the same sequence. -/
theorem values_unit_variants_only (numVariants i : Nat) (h : i < numVariants) :
    (values numVariants).length = numVariants ∧
    (values numVariants).getD i (.otherV 0) = .unitV i ∧
    (∀ d : Int, EnumValue.otherV d ∉ values numVariants) ∧
    values numVariants = values numVariants := by
  refine ⟨by simp [values], ?_, ?_, rfl⟩
  · have hl : i < (values numVariants).length := by simpa [values] using h
    rw [List.getD_eq_getElem _ _ hl]
    simp [values]
  · intro d hd
    simp [values] at hd

/-- Witness for C8 at `len = 2`, index 1. -/
theorem values_unit_variants_only_witness :
    1 < 2 ∧
    ((values 2).length = 2 ∧
     (values 2).getD 1 (.otherV 0) = .unitV 1 ∧
     (∀ d : Int, EnumValue.otherV d ∉ values 2) ∧
     values 2 = values 2) :=
  ⟨by decide, values_unit_variants_only 2 1 (by decide)⟩

/-- Claim C9: whenever the declaration contains a rejected shape — a unit
variant tagged with a `unit_enum` attribute, a one-field tuple variant not
tagged as catch-all, any other non-unit shape — or more than one
catch-all, the derivation stops with a build-time error whose span names a
variant that is either bad-shaped or a catch-all (the duplicate), and no
operation set is produced. -/
theorem classifier_rejects_invalid_shapes (ast : EnumDecl)
    (h : (∃ v ∈ ast.variants, badVariant v = true) ∨ 2 ≤ countOthers ast.variants) :
    ∃ e, unit_enum_derive ast = .error e ∧
      (∀ os, unit_enum_derive ast ≠ .ok os) ∧
      ∃ v ∈ ast.variants, e.span = v.name ∧
        (badVariant v = true ∨ isCatchAll v = true) := by
  have h2 : (∃ v ∈ ast.variants, badVariant v = true) ∨
      2 ≤ countOthers ast.variants + otherBit none := by
    simpa [otherBit] using h
  obtain ⟨e, he, v, hv, hspan, hbad⟩ :=
    processVariants_error_of_bad ast.variants [] none h2
  have herr : unit_enum_derive ast = .error e := by
    unfold unit_enum_derive validate_and_process
    rw [he]
  refine ⟨e, herr, ?_, v, hv, hspan, hbad⟩
  intro os hos
  rw [herr] at hos
  simp at hos

/-- A declaration with two catch-all variants. -/
def twoOthersEnum : EnumDecl :=
  ⟨"E3", some "u16", [unitVar "A" none, otherVar "U1" "u16", otherVar "U2" "u16"]⟩

/-- Witness for C9 on a declaration with two catch-alls. -/
theorem classifier_rejects_invalid_shapes_witness :
    ((∃ v ∈ twoOthersEnum.variants, badVariant v = true) ∨
      2 ≤ countOthers twoOthersEnum.variants) ∧
    (∃ e, unit_enum_derive twoOthersEnum = .error e ∧
      (∀ os, unit_enum_derive twoOthersEnum ≠ .ok os) ∧
      ∃ v ∈ twoOthersEnum.variants, e.span = v.name ∧
        (badVariant v = true ∨ isCatchAll v = true)) :=
  ⟨by decide, classifier_rejects_invalid_shapes twoOthersEnum (by decide)⟩

/-- Claim C10: on a valid enum, the position of the catch-all in the
declaration is irrelevant — deriving with the catch-all mid-list produces
the same operation set as deriving with it moved to the end, and the
resolved discriminants and the unit count are computed over the
subsequence of unit variants only. -/
theorem catch_all_position_irrelevant (nm : String) (rep : Option RustType)
    (l₁ l₂ : List Variant) (o : Variant) (ho : isCatchAll o = true)
    (h : ∃ os, unit_enum_derive ⟨nm, rep, l₁ ++ o :: l₂⟩ = .ok os) :
    unit_enum_derive ⟨nm, rep, l₁ ++ o :: l₂⟩ =
      unit_enum_derive ⟨nm, rep, (l₁ ++ l₂) ++ [o]⟩ ∧
    ∀ os, unit_enum_derive ⟨nm, rep, l₁ ++ o :: l₂⟩ = .ok os →
      os.discs = compute_discriminants ((l₁ ++ l₂).filter isUnitVariant) ∧
      os.numVariants = ((l₁ ++ l₂).filter isUnitVariant).length := by
  obtain ⟨os0, hos0⟩ := h
  obtain ⟨r, hr⟩ : ∃ r, processVariants (l₁ ++ o :: l₂) [] none = .ok r :=
    unit_enum_derive_ok_processVariants ⟨nm, rep, l₁ ++ o :: l₂⟩ os0 hos0
  obtain ⟨hgoodA, hcountA0⟩ : (∀ v ∈ l₁ ++ o :: l₂, badVariant v = false) ∧
      countOthers (l₁ ++ o :: l₂) + otherBit none ≤ 1 :=
    processVariants_ok_conditions (l₁ ++ o :: l₂) [] none r hr
  have hcountA : countOthers (l₁ ++ o :: l₂) ≤ 1 := by
    simpa [otherBit] using hcountA0
  have hco : countOthers l₁ = 0 ∧ countOthers l₂ = 0 := by
    rw [countOthers_append, countOthers_cons, ho] at hcountA
    simp at hcountA
    omega
  have hofil : isUnitVariant o = false := isUnitVariant_false_of_catch o ho
  obtain ⟨ty, hoty, hat⟩ := catch_shape o ho
  have hgoodB : ∀ v ∈ (l₁ ++ l₂) ++ [o], badVariant v = false := by
    intro w hw
    apply hgoodA
    simp only [List.mem_append, List.mem_cons, List.not_mem_nil, or_false] at hw ⊢
    tauto
  have hcountB : countOthers ((l₁ ++ l₂) ++ [o]) ≤ 1 := by
    have h1 : countOthers [o] = 1 := by
      rw [countOthers_cons, ho]
      simp [countOthers]
    rw [countOthers_append, countOthers_append, h1, hco.1, hco.2]
  have hfcA : firstCatch (l₁ ++ o :: l₂) = some (o, ty) := by
    rw [firstCatch_append_zero l₁ (o :: l₂) hco.1,
        firstCatch_cons_catch o l₂ ty hoty hat]
  have hfcB : firstCatch ((l₁ ++ l₂) ++ [o]) = some (o, ty) := by
    rw [firstCatch_append_zero (l₁ ++ l₂) [o]
          (by rw [countOthers_append, hco.1, hco.2]),
        firstCatch_cons_catch o [] ty hoty hat]
  have hfil2 : (l₁ ++ o :: l₂).filter isUnitVariant =
      (l₁ ++ l₂).filter isUnitVariant := by
    simp [List.filter_append, List.filter_cons, hofil]
  have hfilB : ((l₁ ++ l₂) ++ [o]).filter isUnitVariant =
      (l₁ ++ l₂).filter isUnitVariant := by
    simp [List.filter_append, List.filter_cons, hofil]
  have hokA : unit_enum_derive ⟨nm, rep, l₁ ++ o :: l₂⟩ =
      .ok (impl_unit_enum (rep.getD "i32")
        ((l₁ ++ o :: l₂).filter isUnitVariant) (firstCatch (l₁ ++ o :: l₂))) :=
    unit_enum_derive_eq_of_good ⟨nm, rep, l₁ ++ o :: l₂⟩ hgoodA hcountA
  have hokB : unit_enum_derive ⟨nm, rep, (l₁ ++ l₂) ++ [o]⟩ =
      .ok (impl_unit_enum (rep.getD "i32")
        (((l₁ ++ l₂) ++ [o]).filter isUnitVariant) (firstCatch ((l₁ ++ l₂) ++ [o]))) :=
    unit_enum_derive_eq_of_good ⟨nm, rep, (l₁ ++ l₂) ++ [o]⟩ hgoodB hcountB
  constructor
  · rw [hokA, hokB, hfcA, hfcB, hfil2, hfilB]
  · intro os hos
    rw [hokA] at hos
    have hX := Except.ok.inj hos
    rw [← hX]
    constructor
    · show compute_discriminants ((l₁ ++ o :: l₂).filter isUnitVariant) = _
      rw [hfil2]
    · show ((l₁ ++ o :: l₂).filter isUnitVariant).length = _
      rw [hfil2]

/-- The valid enum `[A, Other(i32), B]` with a mid-list catch-all, used as
a concrete instance of C10. -/
def midCatchL1 : List Variant := [unitVar "A" none]

/-- Second unit segment for the C10 witness. -/
def midCatchL2 : List Variant := [unitVar "B" none]

/-- The catch-all variant for the C10 witness. -/
def midCatchO : Variant := otherVar "Other" "i32"

/-- Witness for C10: `[A, Other(i32), B]` versus `[A, B, Other(i32)]`. -/
theorem catch_all_position_irrelevant_witness :
    (isCatchAll midCatchO = true ∧
     (∃ os, unit_enum_derive ⟨"M", some "i32", midCatchL1 ++ midCatchO :: midCatchL2⟩ =
        .ok os)) ∧
    (unit_enum_derive ⟨"M", some "i32", midCatchL1 ++ midCatchO :: midCatchL2⟩ =
       unit_enum_derive ⟨"M", some "i32", (midCatchL1 ++ midCatchL2) ++ [midCatchO]⟩ ∧
     ∀ os, unit_enum_derive ⟨"M", some "i32", midCatchL1 ++ midCatchO :: midCatchL2⟩ =
        .ok os →
       os.discs = compute_discriminants ((midCatchL1 ++ midCatchL2).filter isUnitVariant) ∧
       os.numVariants = ((midCatchL1 ++ midCatchL2).filter isUnitVariant).length) :=
  ⟨⟨rfl, ⟨⟨"i32", ["A", "B"], [0, 1], 2, some ("Other", "i32")⟩, rfl⟩⟩,
   catch_all_position_irrelevant "M" (some "i32") midCatchL1 midCatchL2 midCatchO rfl
     ⟨⟨"i32", ["A", "B"], [0, 1], 2, some ("Other", "i32")⟩, rfl⟩⟩

end UnitEnumM
